import Mathlib

/-!
Shallow embedding of `count_unique_ipv6.py`: a tool counting distinct IPv6
addresses in a text file.

An input file is modelled as the list of its lines (`List String`, without
the trailing newline characters, which `str.strip()` removes anyway).
Fallible Python code (raising exceptions) is modelled with `Option`.

The embedding covers:
* `ipaddress.IPv6Address` parsing (`_ip_int_from_string`, `_parse_hextet`,
  the embedded-IPv4 branch, `_split_scope_id`, the `'/'` check of
  `IPv6Address.__init__`) and the `exploded` formatting, as used by
  `ipv6_to_canonical`;
* MD5 (`hashlib.md5(...).hexdigest()`), used for partition routing;
* the two engines `count_unique_basic` and `count_unique_optimized`
  (partition spill phase with buffered flushes, per-partition distinct
  counting, aggregation), and `main`'s mode selection and output write.
-/

/- ## Constants from the script -/

def MEMORY_MODE_THRESHOLD : Nat := 50 * 1024 * 1024

def NUM_PARTITIONS : Nat := 4096

def CHUNK_WRITE_SIZE : Nat := 8 * 1024 * 1024

/-- `ipaddress._BaseV6._HEXTET_COUNT`. -/
def HEXTET_COUNT : Nat := 8

/- ## Python string primitives -/

/-- The code points Python's `str.strip()` (no argument) treats as whitespace. -/
def isPySpace (c : Char) : Bool :=
  c.toNat ∈ [9, 10, 11, 12, 13, 28, 29, 30, 31, 32, 133, 160, 5760,
    8192, 8193, 8194, 8195, 8196, 8197, 8198, 8199, 8200, 8201, 8202,
    8232, 8233, 8239, 8287, 12288]

/-- Python `str.strip()` on a list of characters. -/
def pyStripL (l : List Char) : List Char :=
  ((l.dropWhile isPySpace).reverse.dropWhile isPySpace).reverse

/-- Python `str.strip()`. -/
def pyStrip (s : String) : String := ⟨pyStripL s.data⟩

/-- Python `str.lower()` restricted to the ASCII range; the only strings it is
applied to in the script (`IPv6Address.exploded` output) are ASCII. -/
def pyLowerChar (c : Char) : Char :=
  if 65 ≤ c.toNat ∧ c.toNat ≤ 90 then Char.ofNat (c.toNat + 32) else c

/-- Python `str.lower()` (ASCII fragment). -/
def pyLower (s : String) : String := ⟨s.data.map pyLowerChar⟩

/-- Python `str.split(sep)` for a one-character separator: splits at every
occurrence, keeping empty pieces (`''.split(':') == ['']`). -/
def splitSep (sep : Char) : List Char → List (List Char)
  | [] => [[]]
  | c :: rest =>
    match splitSep sep rest with
    | [] => [[c]]
    | g :: gs => if c = sep then [] :: g :: gs else (c :: g) :: gs

/- ## Hexadecimal digits -/

/-- Membership in `ipaddress._BaseV6._HEX_DIGITS`
(`frozenset('0123456789ABCDEFabcdef')`), stated on code points. -/
def isHexChar (c : Char) : Bool :=
  (48 ≤ c.toNat ∧ c.toNat ≤ 57) ∨ (65 ≤ c.toNat ∧ c.toNat ≤ 70) ∨
    (97 ≤ c.toNat ∧ c.toNat ≤ 102)

/-- Value of one hexadecimal digit, as `int(_, 16)` assigns it. -/
def hexVal (c : Char) : Nat :=
  if 97 ≤ c.toNat then c.toNat - 87
  else if 65 ≤ c.toNat then c.toNat - 55
  else c.toNat - 48

/-- `int(s, 16)` on a non-empty all-hex-digit string. -/
def unhex (l : List Char) : Nat := l.foldl (fun a c => a * 16 + hexVal c) 0

/-- ASCII decimal digit. Python's `s.isascii() and s.isdigit()` check of
`_parse_octet` accepts exactly these characters. -/
def isDecDigit (c : Char) : Bool := 48 ≤ c.toNat ∧ c.toNat ≤ 57

/-- `int(s, 10)` on a non-empty all-decimal-digit string. -/
def decVal (l : List Char) : Nat := l.foldl (fun a c => a * 10 + (c.toNat - 48)) 0

/-- The lowercase hexadecimal digit for `d < 16`, as `'%x'` formatting emits. -/
def hexChar (d : Nat) : Char :=
  if d < 10 then Char.ofNat (48 + d) else Char.ofNat (87 + d)

/-- The last `k` hexadecimal digits of `v`, most significant first: the
`'%0kx' % v` zero-padded formatting when `v < 16^k`. -/
def hexN : Nat → Nat → List Char
  | 0, _ => []
  | k + 1, v => hexN k (v / 16) ++ [hexChar (v % 16)]

/-- `'%x' % n` (no padding) for `n < 16^4`: the formatting used for the two
hextets synthesized from an embedded IPv4 address. -/
def hexMin4 (n : Nat) : List Char :=
  match (hexN 4 n).dropWhile (· = '0') with
  | [] => ['0']
  | l => l

/- ## `ipaddress` IPv4 parsing (for the embedded-IPv4 suffix branch) -/

/-- `ipaddress._IPv4Constants`-style octet parse: `_BaseV4._parse_octet`. -/
def parse_octet (p : List Char) : Option Nat :=
  if p = [] then none
  else if ¬ p.all isDecDigit then none
  else if 3 < p.length then none
  else if p ≠ ['0'] ∧ p.headD ' ' = '0' then none
  else if 255 < decVal p then none
  else some (decVal p)

/-- `_BaseV4._ip_int_from_string`: `a.b.c.d` to its 32-bit value
(`int.from_bytes(octets, 'big')`). -/
def parse_ipv4_int (l : List Char) : Option Nat :=
  if l = [] then none
  else
    let octets := splitSep '.' l
    if octets.length ≠ 4 then none
    else
      match octets.mapM parse_octet with
      | none => none
      | some bs => some (bs.foldl (fun a b => a * 256 + b) 0)

/- ## `ipaddress` IPv6 parsing -/

/-- `_BaseV6._parse_hextet`: all characters hexadecimal, at most 4 of them,
then `int(_, 16)` (which rejects the empty string). -/
def parse_hextet (p : List Char) : Option Nat :=
  if ¬ p.all isHexChar then none
  else if 4 < p.length then none
  else if p = [] then none
  else some (unhex p)

/-- The hextet-accumulation loop of `_ip_int_from_string`:
`ip_int <<= 16; ip_int |= parse_hextet(part)`. -/
def parseHextetsFold : List (List Char) → Nat → Option Nat
  | [], acc => some acc
  | p :: ps, acc =>
    match parse_hextet p with
    | none => none
    | some h => parseHextetsFold ps ((acc <<< 16) ||| h)

/-- The final accumulation of `_ip_int_from_string`: `parts_hi` parts from the
front, a shift by `16 * parts_skipped`, then `parts_lo` parts from the back. -/
def foldFrontBack (parts : List (List Char)) (hi lo skipped : Nat) : Option Nat :=
  match parseHextetsFold (parts.take hi) 0 with
  | none => none
  | some ip1 => parseHextetsFold (parts.drop (parts.length - lo)) (ip1 <<< (16 * skipped))

/-- `_BaseV6._ip_int_from_string`: textual IPv6 (with optional `::`
compression and optional embedded IPv4 suffix) to its 128-bit value. -/
def parse_ipv6_int (l0 : List Char) : Option Nat :=
  if l0 = [] then none
  else
    let parts0 := splitSep ':' l0
    if parts0.length < 3 then none
    else
      let partsOpt : Option (List (List Char)) :=
        if (parts0.getLastD []).contains '.' then
          (parse_ipv4_int (parts0.getLastD [])).map fun v4 =>
            parts0.dropLast ++ [hexMin4 ((v4 >>> 16) &&& 0xFFFF), hexMin4 (v4 &&& 0xFFFF)]
        else some parts0
      match partsOpt with
      | none => none
      | some parts =>
        if HEXTET_COUNT + 1 < parts.length then none
        else
          match ((List.range parts.length).drop 1).dropLast.filter
              (fun i => parts.getD i [] = []) with
          | [] =>
            -- no '::': exactly 8 parts, none of the endpoints empty
            if parts.length ≠ HEXTET_COUNT then none
            else if parts.headD [] = [] then none
            else if parts.getLastD [] = [] then none
            else foldFrontBack parts parts.length 0 0
          | [skip] =>
            -- a single '::' at interior position `skip`
            let hiRes : Option Nat :=
              if parts.headD [] = [] then
                if skip - 1 = 0 then some (skip - 1) else none
              else some skip
            let loRes : Option Nat :=
              if parts.getLastD [] = [] then
                if parts.length - skip - 1 - 1 = 0 then some (parts.length - skip - 1 - 1)
                else none
              else some (parts.length - skip - 1)
            match hiRes, loRes with
            | some hi, some lo =>
              if HEXTET_COUNT ≤ hi + lo then none
              else foldFrontBack parts hi lo (HEXTET_COUNT - (hi + lo))
            | _, _ => none
          | _ => none  -- more than one '::'

/-- `IPv6Address._split_scope_id`: `addr, sep, scope_id = ip_str.partition('%')`;
a present but empty scope, or a second `'%'`, is an error. -/
def split_scope_id (l : List Char) : Option (List Char × Option (List Char)) :=
  let addr := l.takeWhile (· ≠ '%')
  match l.dropWhile (· ≠ '%') with
  | [] => some (l, none)
  | _ :: scope => if scope = [] ∨ scope.contains '%' then none else some (addr, some scope)

/-- `IPv6Address.__init__` on a string: reject `'/'`, split a scope id off,
parse the address part. Returns the 128-bit value and the optional scope. -/
def ipv6_constructor (t : String) : Option (Nat × Option String) :=
  if t.data.contains '/' then none
  else
    match split_scope_id t.data with
    | none => none
    | some (addr, scope) =>
      (parse_ipv6_int addr).map fun v => (v, scope.map fun sc => (⟨sc⟩ : String))

/- ## The exploded canonical form -/

/-- Split the 32-digit hex string into the 8 four-digit groups
(`[hex_str[x:x+4] for x in range(0, 32, 4)]`). -/
def chunks4 : List Char → List (List Char)
  | a :: b :: c :: d :: rest => [a, b, c, d] :: chunks4 rest
  | [] => []
  | l => [l]

/-- `':'.join(parts)`. -/
def joinColon : List (List Char) → List Char
  | [] => []
  | [g] => g
  | g :: gs => g ++ ':' :: joinColon gs

/-- Characters of `IPv6Address.exploded`: `'%032x' % v`, chunked into 8
groups of 4 joined by `':'`. -/
def explodeChars (v : Nat) : List Char := joinColon (chunks4 (hexN 32 v))

/-- The canonical string of the 128-bit value `v`: `addr.exploded.lower()`. -/
def canonString (v : Nat) : String := pyLower ⟨explodeChars v⟩

/- ## MD5 (`hashlib.md5`) -/

/-- UTF-8 encoding of one character (`str.encode()`); the canonical strings
being hashed are ASCII, where this is a single byte. -/
def utf8EncodeChar (c : Char) : List Nat :=
  let n := c.toNat
  if n < 128 then [n]
  else if n < 2048 then [192 ||| (n >>> 6), 128 ||| (n &&& 63)]
  else if n < 65536 then
    [224 ||| (n >>> 12), 128 ||| ((n >>> 6) &&& 63), 128 ||| (n &&& 63)]
  else
    [240 ||| (n >>> 18), 128 ||| ((n >>> 12) &&& 63), 128 ||| ((n >>> 6) &&& 63),
      128 ||| (n &&& 63)]

/-- `str.encode()`: UTF-8 bytes of a string. -/
def utf8Encode (s : String) : List Nat := (s.data.map utf8EncodeChar).flatten

/-- The 64 MD5 round constants `K[i] = floor(abs(sin(i+1)) * 2^32)`. -/
def md5K : List Nat := [
    3614090360, 3905402710, 606105819, 3250441966, 4118548399, 1200080426, 2821735955, 4249261313,
    1770035416, 2336552879, 4294925233, 2304563134, 1804603682, 4254626195, 2792965006, 1236535329,
    4129170786, 3225465664, 643717713, 3921069994, 3593408605, 38016083, 3634488961, 3889429448,
    568446438, 3275163606, 4107603335, 1163531501, 2850285829, 4243563512, 1735328473, 2368359562,
    4294588738, 2272392833, 1839030562, 4259657740, 2763975236, 1272893353, 4139469664, 3200236656,
    681279174, 3936430074, 3572445317, 76029189, 3654602809, 3873151461, 530742520, 3299628645,
    4096336452, 1126891415, 2878612391, 4237533241, 1700485571, 2399980690, 4293915773, 2240044497,
    1873313359, 4264355552, 2734768916, 1309151649, 4149444226, 3174756917, 718787259, 3951481745]

/-- The 64 MD5 per-round left-rotation amounts. -/
def md5S : List Nat := [
    7, 12, 17, 22, 7, 12, 17, 22, 7, 12, 17, 22, 7, 12, 17, 22,
    5, 9, 14, 20, 5, 9, 14, 20, 5, 9, 14, 20, 5, 9, 14, 20,
    4, 11, 16, 23, 4, 11, 16, 23, 4, 11, 16, 23, 4, 11, 16, 23,
    6, 10, 15, 21, 6, 10, 15, 21, 6, 10, 15, 21, 6, 10, 15, 21]

/-- 32-bit left rotation. -/
def rotl32 (x s : Nat) : Nat := ((x <<< s) ||| (x >>> (32 - s))) % 4294967296

/-- MD5 message padding: `0x80`, zeros to 56 mod 64, the bit length as 8
little-endian bytes. -/
def md5Pad (msg : List Nat) : List Nat :=
  msg ++ [128] ++ List.replicate ((56 + 64 - ((msg.length + 1) % 64)) % 64) 0 ++
    (List.range 8).map (fun i => msg.length * 8 % (2 ^ 64) / 256 ^ i % 256)

/-- Little-endian 32-bit word `j` of a 64-byte block. -/
def md5Word (block : List Nat) (j : Nat) : Nat :=
  block.getD (4 * j) 0 + 256 * block.getD (4 * j + 1) 0 +
    65536 * block.getD (4 * j + 2) 0 + 16777216 * block.getD (4 * j + 3) 0

/-- The nonlinear function and message-word index of MD5 round `i`. -/
def md5FG (i b c d : Nat) : Nat × Nat :=
  if i < 16 then ((b &&& c) ||| ((b ^^^ 4294967295) &&& d), i)
  else if i < 32 then ((d &&& b) ||| ((d ^^^ 4294967295) &&& c), (5 * i + 1) % 16)
  else if i < 48 then (b ^^^ c ^^^ d, (3 * i + 5) % 16)
  else (c ^^^ (b ||| (d ^^^ 4294967295)), (7 * i) % 16)

/-- One MD5 round on the state `(a, b, c, d)`. -/
def md5Round (block : List Nat) (st : Nat × Nat × Nat × Nat) (i : Nat) :
    Nat × Nat × Nat × Nat :=
  let (a, b, c, d) := st
  let (f, g) := md5FG i b c d
  let f2 := (f + a + md5K.getD i 0 + md5Word block g) % 4294967296
  (d, (b + rotl32 f2 (md5S.getD i 0)) % 4294967296, b, c)

/-- Process one 64-byte block: 64 rounds, then add into the running state. -/
def md5ProcessBlock (st : Nat × Nat × Nat × Nat) (block : List Nat) :
    Nat × Nat × Nat × Nat :=
  let (a0, b0, c0, d0) := st
  let (a, b, c, d) := (List.range 64).foldl (md5Round block) (a0, b0, c0, d0)
  ((a0 + a) % 4294967296, (b0 + b) % 4294967296, (c0 + c) % 4294967296,
    (d0 + d) % 4294967296)

/-- The little-endian bytes of a 32-bit word. -/
def le4 (x : Nat) : List Nat :=
  [x % 256, x / 256 % 256, x / 65536 % 256, x / 16777216 % 256]

/-- `hashlib.md5(msg).digest()`: the 16 digest bytes. -/
def md5Digest (msg : List Nat) : List Nat :=
  let padded := md5Pad msg
  let st := ((List.range (padded.length / 64)).map
      (fun i => (padded.drop (64 * i)).take 64)).foldl md5ProcessBlock
    (1732584193, 4023233417, 2562383102, 271733878)
  le4 st.1 ++ le4 st.2.1 ++ le4 st.2.2.1 ++ le4 st.2.2.2

/-- `hashlib.md5(msg).hexdigest()`: each digest byte as two lowercase hex
digits. -/
def md5_hexdigest (msg : List Nat) : List Char := ((md5Digest msg).map (hexN 2)).flatten

/-- Partition routing of the script:
`int(hashlib.md5(canonical.encode()).hexdigest()[:8], 16) % NUM_PARTITIONS`. -/
def partition_index (canonical : String) : Nat :=
  unhex ((md5_hexdigest (utf8Encode canonical)).take 8) % NUM_PARTITIONS

/-- `ipv6_to_canonical` from the script: strip, construct `IPv6Address`,
return `exploded.lower()`.  For a scoped address the construction succeeds but
`exploded` re-parses `str(self)` — which contains `%scope` — and raises; that
path is therefore an error (`none`). -/
def ipv6_to_canonical (addr_str : String) : Option String :=
  match ipv6_constructor (pyStrip addr_str) with
  | none => none
  | some (v, none) => some (canonString v)
  | some (_, some _) => none

/- ## The basic in-memory engine -/

/-- The line loop of `count_unique_basic`: strip, skip blank lines,
canonicalize (an invalid address raises, i.e. yields `none`), insert into the
deduplicating set. -/
def basicLoop : List String → Finset String → Option (Finset String)
  | [], unique => some unique
  | line :: rest, unique =>
    let l := pyStrip line
    if l = "" then basicLoop rest unique
    else
      match ipv6_to_canonical l with
      | none => none
      | some canonical => basicLoop rest (insert canonical unique)

/-- `count_unique_basic`: the size of the set of canonical forms. -/
def count_unique_basic (lines : List String) : Option Nat :=
  (basicLoop lines ∅).map Finset.card

/- ## The optimized (partitioned) engine -/

/-- The in-memory state of the partitioning phase: per-partition spill-file
contents written so far, per-partition write buffers, and the byte counter
`buffer_size`.  Spill files and buffers are lists of the strings written
(each a canonical address plus `'\n'`). -/
structure PartState where
  files : Nat → List String
  buffer : Nat → List String
  buffer_size : Nat

/-- Run start: `NUM_PARTITIONS` spill files created empty, empty buffers. -/
def initState : PartState where
  files := fun _ => []
  buffer := fun _ => []
  buffer_size := 0

/-- The flush inside the reading loop: write out and clear every non-empty
buffer, reset `buffer_size`. -/
def flushAll (s : PartState) : PartState where
  files := fun i => if s.buffer i = [] then s.files i else s.files i ++ s.buffer i
  buffer := fun i => if s.buffer i = [] then s.buffer i else []
  buffer_size := 0

/-- The flush after the loop: write out every non-empty buffer (the buffers
and the counter are not reset; the phase is over). -/
def finalFlush (s : PartState) : PartState :=
  { s with
    files := fun i => if s.buffer i = [] then s.files i else s.files i ++ s.buffer i }

/-- Processing of one canonical address in the partitioning loop: append
`canonical + '\n'` to the buffer of partition
`md5-hash % NUM_PARTITIONS`, bump `buffer_size`, and flush everything once
`buffer_size` reaches `CHUNK_WRITE_SIZE`. -/
def applyCanonical (s : PartState) (canonical : String) : PartState :=
  let idx := partition_index canonical
  let s' : PartState :=
    { s with
      buffer := Function.update s.buffer idx (s.buffer idx ++ [canonical ++ "\n"]),
      buffer_size := s.buffer_size + canonical.length + 1 }
  if CHUNK_WRITE_SIZE ≤ s'.buffer_size then flushAll s' else s'

/-- The reading loop of phase 1: strip, skip blank lines, canonicalize
(failure aborts), route into the buffers. -/
def partitionLoop : List String → PartState → Option PartState
  | [], s => some s
  | line :: rest, s =>
    let l := pyStrip line
    if l = "" then partitionLoop rest s
    else
      match ipv6_to_canonical l with
      | none => none
      | some canonical => partitionLoop rest (applyCanonical s canonical)

/-- Phase 1 of `count_unique_optimized`: the partitioning loop followed by
the final flush. -/
def runPartition (lines : List String) : Option PartState :=
  (partitionLoop lines initState).map finalFlush

/-- `os.path.getsize` of a spill file: total length of the strings written
(they are ASCII, so characters = bytes). -/
def spillSize (contents : List String) : Nat := (contents.map String.length).sum

/-- The loop of `count_unique_in_partition`: strip each line of one spill
file, skip blanks, insert into a set. -/
def partitionCountLoop : List String → Finset String → Finset String
  | [], unique => unique
  | line :: rest, unique =>
    let l := pyStrip line
    if l = "" then partitionCountLoop rest unique
    else partitionCountLoop rest (insert l unique)

/-- `count_unique_in_partition`: distinct stripped non-blank lines of one
spill file. -/
def count_unique_in_partition (fileLines : List String) : Nat :=
  (partitionCountLoop fileLines ∅).card

/-- `count_unique_optimized`.  `num_workers` only sizes the process pool and
cannot influence the result, so it is an unused parameter of the model.
`order` is the order in which `as_completed` yields the per-partition
futures: any permutation of the partition indices `0, ..., NUM_PARTITIONS-1`
(only those with a non-empty spill file are submitted; the `filter` keeps
exactly them).  The results are summed in that order. -/
def count_unique_optimized (lines : List String) (num_workers : Nat)
    (order : List Nat) : Option Nat :=
  (runPartition lines).map fun st =>
    ((order.filter fun i => 0 < spillSize (st.files i)).map
      fun i => count_unique_in_partition (st.files i)).sum

/- ## `main`: mode selection, temporary-directory lifecycle, output -/

/-- Externally visible file-system effects of `main`. -/
inductive FsEvent where
  | createTempDir : FsEvent
  | removeTempDir : FsEvent
  | writeOutput : String → FsEvent
deriving DecidableEq

/-- Which engine `main` runs. -/
inductive EngineMode where
  | basicMode : EngineMode
  | optimizedMode : EngineMode
deriving DecidableEq

/-- The `if args.basic / elif args.optimized or size > threshold / else`
selection in `main`. -/
def select_mode (basic_flag optimized_flag : Bool) (input_size : Nat) : EngineMode :=
  if basic_flag then .basicMode
  else if optimized_flag || decide (MEMORY_MODE_THRESHOLD < input_size) then .optimizedMode
  else .basicMode

/-- `main`: returns the computed count (`none` = the run raised and aborted)
and the trace of external file-system effects.  The
`with tempfile.TemporaryDirectory()` block is modelled by its `try/finally`
semantics: the directory (and the spill files inside it) is removed whether
or not the body succeeds.  The output file is written only after a count was
computed. -/
def main_run (basic_flag optimized_flag : Bool) (workers : Nat)
    (input_exists : Bool) (input_size : Nat) (lines : List String)
    (order : List Nat) : Option Nat × List FsEvent :=
  if !input_exists then (none, [])
  else
    let ran : Option Nat × List FsEvent :=
      match select_mode basic_flag optimized_flag input_size with
      | .basicMode => (count_unique_basic lines, [])
      | .optimizedMode =>
        (count_unique_optimized lines workers order,
          [.createTempDir, .removeTempDir])
    match ran with
    | (none, tr) => (none, tr)
    | (some count, tr) => (some count, tr ++ [.writeOutput (toString count)])

/- ## The sequence of canonical forms of a run (specification helper) -/

/-- The canonical forms of the non-blank lines, in order; `none` if some
non-blank line fails to canonicalize.  Both engines process lines exactly
this way before deduplicating. -/
def canonicalsOf : List String → Option (List String)
  | [] => some []
  | line :: rest =>
    let l := pyStrip line
    if l = "" then canonicalsOf rest
    else
      match ipv6_to_canonical l with
      | none => none
      | some c => (canonicalsOf rest).map (c :: ·)

/-- The actual number of buffered bytes: total length of all buffered
strings (the canonical strings are ASCII, so characters = bytes).  The
script tracks this quantity incrementally in `buffer_size`. -/
def bufferedBytes (s : PartState) : Nat :=
  ∑ i ∈ Finset.range NUM_PARTITIONS, spillSize (s.buffer i)

/- # Lemmas -/

/- ## Hexadecimal digits and the canonical form -/

theorem hexChar_spec {d : Nat} (h : d < 16) :
    hexVal (hexChar d) = d ∧ pyLowerChar (hexChar d) = hexChar d ∧
      isPySpace (hexChar d) = false ∧ hexChar d ≠ ':' := by
  interval_cases d <;> exact ⟨by decide, by decide, by decide, by decide⟩

theorem hexN_length (k v : Nat) : (hexN k v).length = k := by
  induction k generalizing v with
  | zero => rfl
  | succ k ih => simp [hexN, ih]

theorem mem_hexN {c : Char} {k v : Nat} (h : c ∈ hexN k v) :
    ∃ d, d < 16 ∧ c = hexChar d := by
  induction k generalizing v with
  | zero => simp [hexN] at h
  | succ k ih =>
    simp only [hexN, List.mem_append, List.mem_singleton] at h
    rcases h with h | h
    · exact ih h
    · exact ⟨v % 16, Nat.mod_lt _ (by norm_num), h⟩

theorem unhex_append_singleton (l : List Char) (c : Char) :
    unhex (l ++ [c]) = unhex l * 16 + hexVal c := by
  simp [unhex, List.foldl_append]

theorem unhex_hexN (k v : Nat) : unhex (hexN k v) = v % 16 ^ k := by
  induction k generalizing v with
  | zero => simp [hexN, unhex, Nat.mod_one]
  | succ k ih =>
    have hpow : (16 : Nat) ^ (k + 1) = 16 * 16 ^ k := by ring
    rw [hexN, unhex_append_singleton, ih, (hexChar_spec (Nat.mod_lt _ (by norm_num))).1,
      hpow]
    have h1 : v % (16 * 16 ^ k) / 16 = v / 16 % 16 ^ k := Nat.mod_mul_right_div_self v 16 (16 ^ k)
    have h2 : v % (16 * 16 ^ k) % 16 = v % 16 := Nat.mod_mod_of_dvd v ⟨16 ^ k, rfl⟩
    have h3 := Nat.div_add_mod (v % (16 * 16 ^ k)) 16
    omega

theorem chunks4_flatten (l : List Char) : (chunks4 l).flatten = l := by
  induction l using chunks4.induct with
  | case1 a b c d rest ih => simp [chunks4, ih]
  | case2 => simp [chunks4]
  | case3 l h1 h2 => simp [chunks4]

theorem mem_joinColon {c : Char} {gs : List (List Char)} (h : c ∈ joinColon gs) :
    c = ':' ∨ ∃ g ∈ gs, c ∈ g := by
  induction gs with
  | nil => simp [joinColon] at h
  | cons g gs ih =>
    cases gs with
    | nil => simp only [joinColon] at h; exact Or.inr ⟨g, by simp, h⟩
    | cons g' gs' =>
      simp only [joinColon, List.mem_append, List.mem_cons] at h
      rcases h with h | h | h
      · exact Or.inr ⟨g, by simp, h⟩
      · exact Or.inl h
      · rcases ih h with h | ⟨g2, hg2, hc⟩
        · exact Or.inl h
        · exact Or.inr ⟨g2, by simp [hg2], hc⟩

theorem filter_joinColon (gs : List (List Char))
    (h : ∀ g ∈ gs, ∀ c ∈ g, c ≠ ':') :
    (joinColon gs).filter (fun c => c ≠ ':') = gs.flatten := by
  induction gs with
  | nil => simp [joinColon]
  | cons g gs ih =>
    have hg : g.filter (fun c => c ≠ ':') = g :=
      List.filter_eq_self.mpr fun c hc => by simpa using h g (by simp) c hc
    cases gs with
    | nil => simpa [joinColon] using hg
    | cons g' gs' =>
      simp only [joinColon, List.filter_append, List.filter_cons, List.flatten_cons]
      rw [hg, ih fun g2 hg2 c hc => h g2 (by simp [hg2]) c hc]
      simp [joinColon]

theorem mem_explodeChars {c : Char} {v : Nat} (h : c ∈ explodeChars v) :
    c = ':' ∨ ∃ d, d < 16 ∧ c = hexChar d := by
  rcases mem_joinColon h with h | ⟨g, hg, hc⟩
  · exact Or.inl h
  · refine Or.inr (mem_hexN (k := 32) (v := v) ?_)
    rw [← chunks4_flatten (hexN 32 v)]
    exact List.mem_flatten.mpr ⟨g, hg, hc⟩

theorem explodeChars_noColon_filter (v : Nat) :
    (explodeChars v).filter (fun c => c ≠ ':') = hexN 32 v := by
  unfold explodeChars
  rw [filter_joinColon, chunks4_flatten]
  intro g hg c hc
  have : c ∈ hexN 32 v := by
    rw [← chunks4_flatten (hexN 32 v)]; exact List.mem_flatten.mpr ⟨g, hg, hc⟩
  rcases mem_hexN this with ⟨d, hd, rfl⟩
  exact (hexChar_spec hd).2.2.2

theorem explodeChars_ne_nil (v : Nat) : explodeChars v ≠ [] := by
  intro h
  have := explodeChars_noColon_filter v
  rw [h] at this
  have := congrArg List.length this
  simp [hexN_length] at this

theorem map_eq_self_of {α : Type} (l : List α) (f : α → α) (h : ∀ c ∈ l, f c = c) :
    l.map f = l := by
  induction l with
  | nil => rfl
  | cons a t ih => simp [h a (by simp), ih fun c hc => h c (by simp [hc])]

theorem pyLower_explodeChars (v : Nat) :
    (explodeChars v).map pyLowerChar = explodeChars v := by
  apply map_eq_self_of
  intro c hc
  rcases mem_explodeChars hc with rfl | ⟨d, hd, rfl⟩
  · decide
  · exact (hexChar_spec hd).2.1

theorem pyLower_data (s : String) : (pyLower s).data = s.data.map pyLowerChar := rfl

theorem mk_data (l : List Char) : (String.mk l).data = l := rfl

theorem canonString_data (v : Nat) : (canonString v).data = explodeChars v := by
  unfold canonString
  simp only [pyLower_data, mk_data]
  exact pyLower_explodeChars v

theorem canonString_inj {v w : Nat} (hv : v < 2 ^ 128) (hw : w < 2 ^ 128)
    (h : canonString v = canonString w) : v = w := by
  have hdata : explodeChars v = explodeChars w := by
    rw [← canonString_data v, ← canonString_data w, h]
  have hhex : hexN 32 v = hexN 32 w := by
    rw [← explodeChars_noColon_filter v, ← explodeChars_noColon_filter w, hdata]
  have := congrArg unhex hhex
  rw [unhex_hexN, unhex_hexN] at this
  have hp : (16 : Nat) ^ 32 = 2 ^ 128 := by norm_num
  rw [hp, Nat.mod_eq_of_lt hv, Nat.mod_eq_of_lt hw] at this
  exact this

/- ## Parsed values are 128-bit -/

theorem hexVal_lt_16 {c : Char} (h : isHexChar c = true) : hexVal c < 16 := by
  simp only [isHexChar, decide_eq_true_eq] at h
  simp only [hexVal]
  split_ifs with h1 h2 <;> omega

theorem unhex_foldl_lt (l : List Char) (a : Nat) (h : ∀ c ∈ l, isHexChar c = true) :
    l.foldl (fun a c => a * 16 + hexVal c) a < (a + 1) * 16 ^ l.length := by
  induction l generalizing a with
  | nil => simp
  | cons c t ih =>
    have hc := hexVal_lt_16 (h c (by simp))
    have ht := ih (a * 16 + hexVal c) fun x hx => h x (by simp [hx])
    calc (c :: t).foldl (fun a c => a * 16 + hexVal c) a
        = t.foldl (fun a c => a * 16 + hexVal c) (a * 16 + hexVal c) := rfl
      _ < (a * 16 + hexVal c + 1) * 16 ^ t.length := ht
      _ ≤ ((a + 1) * 16) * 16 ^ t.length := by
          have : a * 16 + hexVal c + 1 ≤ (a + 1) * 16 := by omega
          exact Nat.mul_le_mul_right _ this
      _ = (a + 1) * 16 ^ (c :: t).length := by
          simp [List.length_cons, Nat.pow_succ]; ring

theorem unhex_lt (l : List Char) (h : ∀ c ∈ l, isHexChar c = true) :
    unhex l < 16 ^ l.length := by
  have := unhex_foldl_lt l 0 h
  simpa [unhex] using this

theorem parse_hextet_lt {p : List Char} {h : Nat} (hp : parse_hextet p = some h) :
    h < 65536 := by
  simp only [parse_hextet] at hp
  split_ifs at hp with h1 h2 h3
  simp only [Option.some.injEq] at hp
  subst hp
  have hall : ∀ c ∈ p, isHexChar c = true := by
    intro c hc
    have := List.all_eq_true.mp (by simpa using h1) c hc
    simpa using this
  calc unhex p < 16 ^ p.length := unhex_lt p hall
    _ ≤ 16 ^ 4 := Nat.pow_le_pow_right (by norm_num) (by omega)
    _ = 65536 := by norm_num

theorem parseHextetsFold_lt :
    ∀ (ps : List (List Char)) (acc r t : Nat), acc < 2 ^ t →
      parseHextetsFold ps acc = some r → r < 2 ^ (t + 16 * ps.length) := by
  intro ps
  induction ps with
  | nil =>
    intro acc r t hacc h
    simp only [parseHextetsFold, Option.some.injEq] at h
    subst h
    simpa using hacc
  | cons p ps ih =>
    intro acc r t hacc h
    cases hph : parse_hextet p with
    | none => rw [parseHextetsFold, hph] at h; exact absurd h (by simp)
    | some hx =>
      rw [parseHextetsFold, hph] at h
      have hxlt : hx < 2 ^ 16 := by simpa using parse_hextet_lt hph
      have hacc' : (acc <<< 16) ||| hx < 2 ^ (16 + t) := Nat.append_lt hxlt hacc
      have := ih _ r (16 + t) hacc' h
      have hexp : 16 + t + 16 * ps.length = t + 16 * (p :: ps).length := by
        simp [List.length_cons]; ring
      rwa [hexp] at this

theorem foldFrontBack_lt {parts : List (List Char)} {hi lo skipped v : Nat}
    (h : foldFrontBack parts hi lo skipped = some v)
    (hb : (parts.take hi).length + skipped + (parts.drop (parts.length - lo)).length ≤ 8) :
    v < 2 ^ 128 := by
  simp only [foldFrontBack] at h
  cases h1 : parseHextetsFold (parts.take hi) 0 with
  | none => rw [h1] at h; exact absurd h (by simp)
  | some ip1 =>
    rw [h1] at h
    have hip1 : ip1 < 2 ^ (0 + 16 * (parts.take hi).length) :=
      parseHextetsFold_lt _ 0 ip1 0 (by norm_num) h1
    have hshift : ip1 <<< (16 * skipped) <
        2 ^ (0 + 16 * (parts.take hi).length + 16 * skipped) :=
      Nat.shiftLeft_lt hip1
    have hv := parseHextetsFold_lt _ _ v _ hshift h
    have : (0 + 16 * (parts.take hi).length + 16 * skipped) +
        16 * (parts.drop (parts.length - lo)).length ≤ 128 := by omega
    exact lt_of_lt_of_le hv (Nat.pow_le_pow_right (by norm_num) this)

theorem parse_ipv6_int_lt {l : List Char} {v : Nat} (h : parse_ipv6_int l = some v) :
    v < 2 ^ 128 := by
  simp only [parse_ipv6_int, HEXTET_COUNT] at h
  split at h
  · exact absurd h (by simp)
  split at h
  · exact absurd h (by simp)
  split at h
  · exact absurd h (by simp)
  rename_i parts hparts
  split at h
  · exact absurd h (by simp)
  split at h
  · -- no '::'
    split at h
    · exact absurd h (by simp)
    split at h
    · exact absurd h (by simp)
    split at h
    · exact absurd h (by simp)
    refine foldFrontBack_lt h ?_
    rw [List.length_take, List.length_drop]
    omega
  · -- one '::'
    rename_i skip hskip
    split at h
    · rename_i hi lo hhi hlo
      split at h
      · exact absurd h (by simp)
      rename_i h7
      refine foldFrontBack_lt h ?_
      rw [List.length_take, List.length_drop]
      omega
    · exact absurd h (by simp)
  · exact absurd h (by simp)

theorem ipv6_constructor_lt {t : String} {v : Nat} {sc : Option String}
    (h : ipv6_constructor t = some (v, sc)) : v < 2 ^ 128 := by
  simp only [ipv6_constructor] at h
  split at h
  · exact absurd h (by simp)
  split at h
  · exact absurd h (by simp)
  rename_i addr scope hsp
  cases hp : parse_ipv6_int addr with
  | none => rw [hp] at h; exact absurd h (by simp)
  | some v' =>
    rw [hp] at h
    simp only [Option.map_some', Option.some.injEq, Prod.mk.injEq] at h
    exact h.1 ▸ parse_ipv6_int_lt hp

theorem ipv6_to_canonical_shape {s c : String} (h : ipv6_to_canonical s = some c) :
    ∃ v, v < 2 ^ 128 ∧ c = canonString v := by
  simp only [ipv6_to_canonical] at h
  split at h
  · exact absurd h (by simp)
  · rename_i v hcons
    simp only [Option.some.injEq] at h
    exact ⟨v, ipv6_constructor_lt hcons, h.symm⟩
  · exact absurd h (by simp)

/- ## Stripping a written spill line recovers the canonical string -/

theorem dropWhile_eq_self_of {p : Char → Bool} {l : List Char}
    (h : ∀ c ∈ l, p c = false) : l.dropWhile p = l := by
  cases l with
  | nil => rfl
  | cons a t => rw [List.dropWhile_cons, if_neg (by simp [h a (by simp)])]

theorem pyStripL_append_newline {l : List Char} (hne : l ≠ [])
    (h : ∀ c ∈ l, isPySpace c = false) : pyStripL (l ++ ['\n']) = l := by
  obtain ⟨a, t, rfl⟩ := List.exists_cons_of_ne_nil hne
  unfold pyStripL
  rw [List.cons_append, List.dropWhile_cons, if_neg (by simp [h a (by simp)])]
  have hrev : (a :: (t ++ ['\n'])).reverse = '\n' :: (a :: t).reverse := by
    simp
  rw [hrev, List.dropWhile_cons, if_pos (by decide)]
  rw [dropWhile_eq_self_of fun c hc => h c (List.mem_reverse.mp hc), List.reverse_reverse]

theorem canonString_no_space {v : Nat} : ∀ c ∈ (canonString v).data, isPySpace c = false := by
  rw [canonString_data]
  intro c hc
  rcases mem_explodeChars hc with rfl | ⟨d, hd, rfl⟩
  · decide
  · exact (hexChar_spec hd).2.2.1

theorem canonString_ne_empty (v : Nat) : canonString v ≠ "" := by
  intro h
  have := congrArg String.data h
  rw [canonString_data] at this
  exact explodeChars_ne_nil v (by simpa using this)

theorem pyStrip_data (s : String) : (pyStrip s).data = pyStripL s.data := rfl

theorem pyStrip_canonString_newline (v : Nat) :
    pyStrip (canonString v ++ "\n") = canonString v := by
  have hne : (canonString v).data ≠ [] := by
    intro hd
    exact canonString_ne_empty v (String.ext (by rw [hd]))
  have hmain : pyStripL ((canonString v).data ++ ['\n']) = (canonString v).data :=
    pyStripL_append_newline hne canonString_no_space
  have h1 : (canonString v ++ "\n").data = (canonString v).data ++ ['\n'] :=
    String.data_append _ _
  apply String.ext
  calc (pyStrip (canonString v ++ "\n")).data
      = pyStripL ((canonString v ++ "\n").data) := pyStrip_data _
    _ = pyStripL ((canonString v).data ++ ['\n']) := congrArg pyStripL h1
    _ = (canonString v).data := hmain

/- ## The basic engine counts distinct canonical forms -/

theorem basicLoop_spec (lines : List String) :
    ∀ u : Finset String,
      basicLoop lines u = (canonicalsOf lines).map fun cs => u ∪ cs.toFinset := by
  induction lines with
  | nil => intro u; simp [basicLoop, canonicalsOf]
  | cons line rest ih =>
    intro u
    simp only [basicLoop, canonicalsOf]
    by_cases hb : pyStrip line = ""
    · simp only [if_pos hb]; exact ih u
    · simp only [if_neg hb]
      cases hc : ipv6_to_canonical (pyStrip line) with
      | none => rfl
      | some c =>
        dsimp only
        rw [ih (insert c u)]
        cases hrest : canonicalsOf rest with
        | none => rfl
        | some cs =>
          simp [List.toFinset_cons, Finset.union_insert, Finset.insert_union]

theorem count_unique_basic_spec (lines : List String) :
    count_unique_basic lines = (canonicalsOf lines).map fun cs => cs.toFinset.card := by
  unfold count_unique_basic
  rw [basicLoop_spec]
  cases canonicalsOf lines <;> simp

/- ## The partitioning phase routes each canonical to its partition -/

theorem flushAll_files_buffer (s : PartState) (i : Nat) :
    (flushAll s).files i ++ (flushAll s).buffer i = s.files i ++ s.buffer i := by
  simp only [flushAll]
  by_cases h : s.buffer i = [] <;> simp [h]

theorem flushAll_buffer (s : PartState) (i : Nat) : (flushAll s).buffer i = [] := by
  simp only [flushAll]
  by_cases h : s.buffer i = [] <;> simp [h]

theorem finalFlush_files (s : PartState) (i : Nat) :
    (finalFlush s).files i = s.files i ++ s.buffer i := by
  simp only [finalFlush]
  by_cases h : s.buffer i = [] <;> simp [h]

theorem update_buffer_apply (s : PartState) (c : String) (i : Nat) :
    Function.update s.buffer (partition_index c)
        (s.buffer (partition_index c) ++ [c ++ "\n"]) i =
      s.buffer i ++ (if partition_index c = i then [c ++ "\n"] else []) := by
  rcases eq_or_ne i (partition_index c) with h | h
  · subst h; simp
  · rw [Function.update_noteq h, if_neg fun hh => h hh.symm, List.append_nil]

theorem applyCanonical_files_buffer (s : PartState) (c : String) (i : Nat) :
    (applyCanonical s c).files i ++ (applyCanonical s c).buffer i =
      s.files i ++ s.buffer i ++ (if partition_index c = i then [c ++ "\n"] else []) := by
  simp only [applyCanonical]
  dsimp only
  by_cases hf : CHUNK_WRITE_SIZE ≤ s.buffer_size + c.length + 1
  · rw [if_pos hf, flushAll_files_buffer]
    dsimp only
    rw [update_buffer_apply, List.append_assoc]
  · rw [if_neg hf]
    dsimp only
    rw [update_buffer_apply, List.append_assoc]

theorem partitionLoop_spec (lines : List String) :
    ∀ s : PartState,
      partitionLoop lines s = (canonicalsOf lines).map fun cs => cs.foldl applyCanonical s := by
  induction lines with
  | nil => intro s; simp [partitionLoop, canonicalsOf]
  | cons line rest ih =>
    intro s
    simp only [partitionLoop, canonicalsOf]
    by_cases hb : pyStrip line = ""
    · simp only [if_pos hb]; exact ih s
    · simp only [if_neg hb]
      cases hc : ipv6_to_canonical (pyStrip line) with
      | none => rfl
      | some c =>
        dsimp only
        rw [ih (applyCanonical s c)]
        cases canonicalsOf rest <;> simp

theorem foldl_applyCanonical_inv (cs : List String) :
    ∀ (s : PartState) (i : Nat),
      (cs.foldl applyCanonical s).files i ++ (cs.foldl applyCanonical s).buffer i =
        s.files i ++ s.buffer i ++
          (cs.filter fun c => decide (partition_index c = i)).map (· ++ "\n") := by
  induction cs with
  | nil => intro s i; simp
  | cons c cs ih =>
    intro s i
    rw [List.foldl_cons, ih (applyCanonical s c) i, applyCanonical_files_buffer,
      List.filter_cons]
    by_cases hp : partition_index c = i
    · simp [hp, List.append_assoc]
    · simp [hp]

theorem runPartition_some {lines cs : List String} (h : canonicalsOf lines = some cs) :
    runPartition lines = some (finalFlush (cs.foldl applyCanonical initState)) := by
  unfold runPartition
  rw [partitionLoop_spec, h]
  rfl

theorem runPartition_none {lines : List String} (h : canonicalsOf lines = none) :
    runPartition lines = none := by
  unfold runPartition
  rw [partitionLoop_spec, h]
  rfl

theorem runPartition_files {lines cs : List String} (h : canonicalsOf lines = some cs)
    {st : PartState} (hst : runPartition lines = some st) (i : Nat) :
    st.files i = (cs.filter fun c => decide (partition_index c = i)).map (· ++ "\n") := by
  rw [runPartition_some h, Option.some.injEq] at hst
  subst hst
  rw [finalFlush_files, foldl_applyCanonical_inv]
  simp [initState]

/- ## Canonicals have the canonical shape -/

theorem canonicalsOf_shape :
    ∀ {lines cs : List String}, canonicalsOf lines = some cs →
      ∀ c ∈ cs, ∃ v, v < 2 ^ 128 ∧ c = canonString v := by
  intro lines
  induction lines with
  | nil => intro cs h c hc; simp [canonicalsOf] at h; subst h; simp at hc
  | cons line rest ih =>
    intro cs h c hc
    simp only [canonicalsOf] at h
    by_cases hb : pyStrip line = ""
    · rw [if_pos hb] at h; exact ih h c hc
    · rw [if_neg hb] at h
      cases hcan : ipv6_to_canonical (pyStrip line) with
      | none => rw [hcan] at h; exact absurd h (by simp)
      | some c0 =>
        rw [hcan] at h
        cases hrest : canonicalsOf rest with
        | none => rw [hrest] at h; exact absurd h (by simp)
        | some cs0 =>
          rw [hrest] at h
          simp only [Option.map_some', Option.some.injEq] at h
          subst h
          rcases List.mem_cons.mp hc with rfl | hmem
          · exact ipv6_to_canonical_shape hcan
          · exact ih hrest c hmem

theorem canonShape_strip {c : String} (h : ∃ v, v < 2 ^ 128 ∧ c = canonString v) :
    pyStrip (c ++ "\n") = c ∧ c ≠ "" := by
  obtain ⟨v, -, rfl⟩ := h
  exact ⟨pyStrip_canonString_newline v, canonString_ne_empty v⟩

/- ## Counting one spill file -/

theorem partitionCountLoop_map (l : List String)
    (hshape : ∀ c ∈ l, pyStrip (c ++ "\n") = c ∧ c ≠ "") :
    ∀ u : Finset String, partitionCountLoop (l.map (· ++ "\n")) u = u ∪ l.toFinset := by
  induction l with
  | nil => intro u; simp [partitionCountLoop]
  | cons c cs ih =>
    intro u
    obtain ⟨hstrip, hne⟩ := hshape c (by simp)
    simp only [List.map_cons, partitionCountLoop, hstrip]
    rw [if_neg hne, ih (fun x hx => hshape x (by simp [hx])) (insert c u)]
    simp [Finset.union_insert, Finset.insert_union]

theorem count_unique_in_partition_map (l : List String)
    (hshape : ∀ c ∈ l, pyStrip (c ++ "\n") = c ∧ c ≠ "") :
    count_unique_in_partition (l.map (· ++ "\n")) = l.toFinset.card := by
  unfold count_unique_in_partition
  rw [partitionCountLoop_map l hshape ∅]
  simp

theorem partitionCountLoop_blank (l : List String) (h : ∀ line ∈ l, line = "") :
    ∀ u : Finset String, partitionCountLoop l u = u := by
  induction l with
  | nil => intro u; rfl
  | cons a t ih =>
    intro u
    have ha : a = "" := h a (by simp)
    subst ha
    simp only [partitionCountLoop]
    rw [if_pos (show pyStrip "" = "" from rfl)]
    exact ih (fun x hx => h x (by simp [hx])) u

theorem count_zero_of_spillSize_zero {l : List String} (h : spillSize l = 0) :
    count_unique_in_partition l = 0 := by
  simp only [spillSize] at h
  have hblank : ∀ line ∈ l, line = "" := by
    intro line hline
    have hle : line.length ≤ (l.map String.length).sum :=
      List.single_le_sum (fun x _ => Nat.zero_le x) _ (List.mem_map_of_mem _ hline)
    have hlen : line.length = 0 := by omega
    have hd : line.data = [] := List.length_eq_zero.mp hlen
    exact String.ext (by rw [hd])
  unfold count_unique_in_partition
  rw [partitionCountLoop_blank l hblank ∅]
  rfl

/- ## Summation lemmas -/

theorem partition_index_lt (c : String) : partition_index c < NUM_PARTITIONS := by
  unfold partition_index
  exact Nat.mod_lt _ (by norm_num [NUM_PARTITIONS])

theorem sum_filter_zeros (l : List Nat) (p : Nat → Bool) (f : Nat → Nat)
    (h : ∀ i, p i = false → f i = 0) :
    ((l.filter p).map f).sum = (l.map f).sum := by
  induction l with
  | nil => rfl
  | cons a t ih =>
    rw [List.filter_cons]
    cases hp : p a
    · rw [if_neg (by simp), ih, List.map_cons, List.sum_cons, h a hp, Nat.zero_add]
    · rw [if_pos (by simp), List.map_cons, List.sum_cons, List.map_cons, List.sum_cons, ih]

theorem range_map_sum (n : Nat) (f : Nat → Nat) :
    ((List.range n).map f).sum = ∑ i ∈ Finset.range n, f i := by
  induction n with
  | zero => rfl
  | succ n ih =>
    rw [List.range_succ, List.map_append, List.sum_append, Finset.sum_range_succ, ih]
    simp

theorem toFinset_card_fiberwise (cs : List String) :
    cs.toFinset.card =
      ∑ i ∈ Finset.range NUM_PARTITIONS,
        ((cs.filter fun c => decide (partition_index c = i)).toFinset).card := by
  rw [Finset.card_eq_sum_card_fiberwise
    (f := partition_index) (t := Finset.range NUM_PARTITIONS)
    (fun c _ => Finset.mem_range.mpr (partition_index_lt c))]
  apply Finset.sum_congr rfl
  intro i _
  congr 1
  rw [List.toFinset_filter]
  exact Finset.filter_congr fun x _ => by simp

/- ## The optimized engine computes the same count -/

theorem count_unique_optimized_some {lines cs : List String}
    (h : canonicalsOf lines = some cs) (w : Nat) {order : List Nat}
    (hord : order.Perm (List.range NUM_PARTITIONS)) :
    count_unique_optimized lines w order = some cs.toFinset.card := by
  have hst := runPartition_some h
  unfold count_unique_optimized
  rw [hst]
  simp only [Option.map_some', Option.some.injEq]
  have hfiles := runPartition_files h hst
  have hcount : ∀ i, count_unique_in_partition
        ((finalFlush (cs.foldl applyCanonical initState)).files i) =
      ((cs.filter fun c => decide (partition_index c = i)).toFinset).card := by
    intro i
    rw [hfiles i]
    apply count_unique_in_partition_map
    intro c hc
    exact canonShape_strip (canonicalsOf_shape h c (List.mem_filter.mp hc).1)
  have hzero : ∀ i,
      (fun i => decide (0 < spillSize
        ((finalFlush (cs.foldl applyCanonical initState)).files i))) i = false →
      (fun i => count_unique_in_partition
        ((finalFlush (cs.foldl applyCanonical initState)).files i)) i = 0 := by
    intro i hi
    simp only [decide_eq_false_iff_not, Nat.not_lt, Nat.le_zero] at hi
    exact count_zero_of_spillSize_zero hi
  rw [sum_filter_zeros _ _ _ hzero,
    (hord.map fun i => count_unique_in_partition
      ((finalFlush (cs.foldl applyCanonical initState)).files i)).sum_eq,
    range_map_sum, Finset.sum_congr rfl fun i _ => hcount i]
  exact (toFinset_card_fiberwise cs).symm

theorem count_unique_optimized_none {lines : List String}
    (h : canonicalsOf lines = none) (w : Nat) (order : List Nat) :
    count_unique_optimized lines w order = none := by
  unfold count_unique_optimized
  rw [runPartition_none h]
  rfl

theorem optimized_eq_basic (lines : List String) (w : Nat) {order : List Nat}
    (hord : order.Perm (List.range NUM_PARTITIONS)) :
    count_unique_optimized lines w order = count_unique_basic lines := by
  cases h : canonicalsOf lines with
  | none => rw [count_unique_optimized_none h, count_unique_basic_spec, h]; rfl
  | some cs =>
    rw [count_unique_optimized_some h w hord, count_unique_basic_spec, h]
    rfl

/- ## Buffered-flush bookkeeping -/

theorem flushAll_files (s : PartState) (i : Nat) :
    (flushAll s).files i = s.files i ++ s.buffer i := by
  simp only [flushAll]
  by_cases h : s.buffer i = [] <;> simp [h]

theorem flushAll_buffer_size (s : PartState) : (flushAll s).buffer_size = 0 := rfl

theorem spillSize_append_one (l : List String) (x : String) :
    spillSize (l ++ [x]) = spillSize l + x.length := by
  simp [spillSize]

theorem length_append_newline (c : String) : (c ++ "\n").length = c.length + 1 := by
  rw [String.length_append]
  rfl

theorem bufferedBytes_flushAll (s : PartState) : bufferedBytes (flushAll s) = 0 := by
  unfold bufferedBytes
  apply Finset.sum_eq_zero
  intro i _
  rw [flushAll_buffer]
  rfl

theorem bufferedBytes_update (s : PartState) (c : String)
    (hsum : s.buffer_size = bufferedBytes s) :
    ∑ i ∈ Finset.range NUM_PARTITIONS,
        spillSize (Function.update s.buffer (partition_index c)
          (s.buffer (partition_index c) ++ [c ++ "\n"]) i) =
      s.buffer_size + c.length + 1 := by
  have hmem : partition_index c ∈ Finset.range NUM_PARTITIONS :=
    Finset.mem_range.mpr (partition_index_lt c)
  have hcomp : ∀ i, spillSize (Function.update s.buffer (partition_index c)
      (s.buffer (partition_index c) ++ [c ++ "\n"]) i) =
      Function.update (fun j => spillSize (s.buffer j)) (partition_index c)
        (spillSize (s.buffer (partition_index c) ++ [c ++ "\n"])) i := by
    intro i
    rcases eq_or_ne i (partition_index c) with h | h
    · subst h; simp
    · rw [Function.update_noteq h, Function.update_noteq h]
  rw [Finset.sum_congr rfl fun i _ => hcomp i, Finset.sum_update_of_mem hmem,
    Finset.sdiff_singleton_eq_erase]
  have hadd := Finset.add_sum_erase (Finset.range NUM_PARTITIONS)
    (fun i => spillSize (s.buffer i)) hmem
  simp only at hadd ⊢
  rw [spillSize_append_one, length_append_newline]
  unfold bufferedBytes at hsum
  omega

theorem applyCanonical_buffer_size_lt (s : PartState) (c : String) :
    (applyCanonical s c).buffer_size < CHUNK_WRITE_SIZE := by
  simp only [applyCanonical]
  dsimp only
  by_cases hf : CHUNK_WRITE_SIZE ≤ s.buffer_size + c.length + 1
  · rw [if_pos hf, flushAll_buffer_size]
    norm_num [CHUNK_WRITE_SIZE]
  · rw [if_neg hf]
    dsimp only
    omega

theorem applyCanonical_buffer_size_sum (s : PartState) (c : String)
    (hsum : s.buffer_size = bufferedBytes s) :
    (applyCanonical s c).buffer_size = bufferedBytes (applyCanonical s c) := by
  simp only [applyCanonical]
  dsimp only
  by_cases hf : CHUNK_WRITE_SIZE ≤ s.buffer_size + c.length + 1
  · rw [if_pos hf, flushAll_buffer_size, bufferedBytes_flushAll]
  · rw [if_neg hf]
    unfold bufferedBytes
    dsimp only
    exact (bufferedBytes_update s c hsum).symm

theorem applyCanonical_flush_case (s : PartState) (c : String)
    (hf : CHUNK_WRITE_SIZE ≤ s.buffer_size + c.length + 1) :
    (∀ i, (applyCanonical s c).buffer i = []) ∧
      (applyCanonical s c).buffer_size = 0 ∧
      ∀ i, (applyCanonical s c).files i =
        s.files i ++ Function.update s.buffer (partition_index c)
          (s.buffer (partition_index c) ++ [c ++ "\n"]) i := by
  have happ : applyCanonical s c = flushAll
      { s with
        buffer := Function.update s.buffer (partition_index c)
          (s.buffer (partition_index c) ++ [c ++ "\n"]),
        buffer_size := s.buffer_size + c.length + 1 } := by
    simp only [applyCanonical]
    dsimp only
    rw [if_pos hf]
  rw [happ]
  exact ⟨fun i => flushAll_buffer _ i, flushAll_buffer_size _, fun i => flushAll_files _ i⟩

theorem applyCanonical_no_flush_case (s : PartState) (c : String)
    (hf : s.buffer_size + c.length + 1 < CHUNK_WRITE_SIZE) :
    (applyCanonical s c).buffer_size = s.buffer_size + c.length + 1 ∧
      (∀ i, (applyCanonical s c).buffer i =
        Function.update s.buffer (partition_index c)
          (s.buffer (partition_index c) ++ [c ++ "\n"]) i) ∧
      ∀ i, (applyCanonical s c).files i = s.files i := by
  have happ : applyCanonical s c =
      { s with
        buffer := Function.update s.buffer (partition_index c)
          (s.buffer (partition_index c) ++ [c ++ "\n"]),
        buffer_size := s.buffer_size + c.length + 1 } := by
    simp only [applyCanonical]
    dsimp only
    rw [if_neg (by omega)]
  rw [happ]
  exact ⟨rfl, fun i => rfl, fun i => rfl⟩

theorem partitionLoop_cons_valid (s : PartState) (line c : String) (rest : List String)
    (hnb : pyStrip line ≠ "") (hc : ipv6_to_canonical (pyStrip line) = some c) :
    partitionLoop (line :: rest) s = partitionLoop rest (applyCanonical s c) := by
  simp only [partitionLoop]
  rw [if_neg hnb, hc]

/- ## Fatal invalid lines and blank inputs -/

theorem canonicalsOf_none_of_invalid {line : String}
    (hnb : pyStrip line ≠ "") (hinv : ipv6_to_canonical (pyStrip line) = none) :
    ∀ lines : List String, line ∈ lines → canonicalsOf lines = none := by
  intro lines
  induction lines with
  | nil => intro hmem; simp at hmem
  | cons a rest ih =>
    intro hmem
    simp only [canonicalsOf]
    rcases List.mem_cons.mp hmem with rfl | hmem'
    · rw [if_neg hnb, hinv]
    · by_cases hb : pyStrip a = ""
      · rw [if_pos hb]; exact ih hmem'
      · rw [if_neg hb]
        cases hca : ipv6_to_canonical (pyStrip a) with
        | none => rfl
        | some c =>
          dsimp only
          rw [ih hmem']
          rfl

theorem canonicalsOf_blank :
    ∀ lines : List String, (∀ l ∈ lines, pyStrip l = "") →
      canonicalsOf lines = some [] := by
  intro lines
  induction lines with
  | nil => intro _; rfl
  | cons a rest ih =>
    intro h
    simp only [canonicalsOf]
    rw [if_pos (h a (by simp))]
    exact ih fun l hl => h l (by simp [hl])

theorem count_unique_optimized_empty {lines : List String}
    (h : canonicalsOf lines = some []) (w : Nat) (order : List Nat) :
    count_unique_optimized lines w order = some 0 := by
  have hst := runPartition_some h
  have hfiles := runPartition_files h hst
  unfold count_unique_optimized
  rw [hst]
  simp only [Option.map_some', Option.some.injEq]
  have hfiles' : ∀ i, (finalFlush initState).files i = [] := by
    intro i
    simpa using hfiles i
  simp [hfiles', spillSize]

/- # Claims -/

/-- C1: Engine equivalence — for every input file (its list of lines), every
worker-pool size, and every completion order of the per-partition tasks, the
optimized (partitioned) engine returns exactly what the basic (in-memory)
engine returns: the same distinct count, and an error exactly when the basic
engine errors. -/
theorem c1_engine_equivalence (lines : List String) (num_workers : Nat)
    (order : List Nat) (hord : order.Perm (List.range NUM_PARTITIONS)) :
    count_unique_optimized lines num_workers order = count_unique_basic lines :=
  optimized_eq_basic lines num_workers hord

theorem c1_engine_equivalence_witness :
    count_unique_optimized
        ["2001:0DB0:0000:0000:0000:0000:0000:0030", "2001:db0::30", "::1", "::1"]
        1 (List.range NUM_PARTITIONS) =
      count_unique_basic
        ["2001:0DB0:0000:0000:0000:0000:0000:0030", "2001:db0::30", "::1", "::1"] :=
  c1_engine_equivalence _ 1 _ (List.Perm.refl _)

/-- C2 (counterexample): the claim "for every two input strings that parse as
valid IPv6 addresses, `ipv6_to_canonical(x) == ipv6_to_canonical(y)` iff `x`
and `y` denote the same 128-bit value" is false as stated: strings with a
zone/scope id (e.g. `fe80::1%a` and `fe80::2%a`) parse as valid IPv6
addresses (`IPv6Address(...)` succeeds) yet `.exploded` raises on them, so
both canonicalize to the error outcome — equal results for two different
128-bit values. -/
theorem c2_canonicalization_counterexample :
    ¬ (∀ x y : String, (ipv6_constructor (pyStrip x)).isSome = true →
        (ipv6_constructor (pyStrip y)).isSome = true →
        (ipv6_to_canonical x = ipv6_to_canonical y ↔
          Option.map Prod.fst (ipv6_constructor (pyStrip x)) =
            Option.map Prod.fst (ipv6_constructor (pyStrip y)))) := by
  intro hcl
  have h := hcl "fe80::1%a" "fe80::2%a" (by decide) (by decide)
  exact absurd (h.mp (by decide)) (by decide)

/-- C2 (amended): for every two input strings that parse as valid IPv6
addresses **without a zone/scope id**, the canonical forms are equal iff the
two strings denote the same 128-bit value — across exploded, compressed,
mixed-case and IPv4-mapped-suffix textual forms, all of which the parser
accepts. -/
theorem c2_canonicalization_decides_equality (x y : String) (vx vy : Nat)
    (hx : ipv6_constructor (pyStrip x) = some (vx, none))
    (hy : ipv6_constructor (pyStrip y) = some (vy, none)) :
    ipv6_to_canonical x = ipv6_to_canonical y ↔ vx = vy := by
  have hcx : ipv6_to_canonical x = some (canonString vx) := by
    unfold ipv6_to_canonical
    rw [hx]
  have hcy : ipv6_to_canonical y = some (canonString vy) := by
    unfold ipv6_to_canonical
    rw [hy]
  rw [hcx, hcy]
  constructor
  · intro h
    exact canonString_inj (ipv6_constructor_lt hx) (ipv6_constructor_lt hy)
      (Option.some.injEq _ _ ▸ h)
  · intro h
    rw [h]

theorem c2_canonicalization_decides_equality_witness :
    ipv6_to_canonical "2001:0DB0:0000:0000:0000:0000:0000:0030" =
        ipv6_to_canonical "2001:db0::30" ↔
      (42540765777457292742789284203302223920 : Nat) =
        42540765777457292742789284203302223920 :=
  c2_canonicalization_decides_equality _ _ _ _ (by decide) (by decide)

/-- C3: Partitioning is complete and non-duplicating — for every input whose
non-blank lines all canonicalize (canonical sequence `cs`), the partitioning
phase succeeds, spill file `i` holds exactly the canonical lines hashing to
`i` (in order, each with `'\n'`), and every canonicalized line appears in
exactly one spill file: the one indexed by its deterministic hash modulo
`NUM_PARTITIONS`. -/
theorem c3_partitioning_exact (lines cs : List String)
    (h : canonicalsOf lines = some cs) :
    ∃ st, runPartition lines = some st ∧
      (∀ i, st.files i =
        (cs.filter fun c => decide (partition_index c = i)).map (· ++ "\n")) ∧
      ∀ c ∈ cs, (c ++ "\n") ∈ st.files (partition_index c) ∧
        ∀ j, (c ++ "\n") ∈ st.files j → j = partition_index c := by
  have hst := runPartition_some h
  refine ⟨_, hst, fun i => runPartition_files h hst i, ?_⟩
  intro c hc
  constructor
  · rw [runPartition_files h hst]
    exact List.mem_map_of_mem _ (List.mem_filter.mpr ⟨hc, by simp⟩)
  · intro j hj
    rw [runPartition_files h hst] at hj
    obtain ⟨c', hc', heq⟩ := List.mem_map.mp hj
    have hcc : c' = c := by
      have hdata := congrArg String.data heq
      rw [String.data_append, String.data_append] at hdata
      exact String.ext (List.append_cancel_right hdata)
    subst hcc
    have := (List.mem_filter.mp hc').2
    simp only [decide_eq_true_eq] at this
    exact this.symm

theorem c3_partitioning_exact_witness :
    ∃ st, runPartition ["::1", ""] = some st ∧
      (∀ i, st.files i =
        ((["0000:0000:0000:0000:0000:0000:0000:0001"].filter
          fun c => decide (partition_index c = i)).map (· ++ "\n"))) ∧
      ∀ c ∈ ["0000:0000:0000:0000:0000:0000:0000:0001"],
        (c ++ "\n") ∈ st.files (partition_index c) ∧
        ∀ j, (c ++ "\n") ∈ st.files j → j = partition_index c :=
  c3_partitioning_exact _ _ (by decide)

/-- C4: Invalid addresses are fatal and atomic — if any non-blank line fails
to parse as IPv6, both engines raise (return `none`) rather than returning a
count, no line is skipped into a partial result, and `main` never writes
anything to the output file on that failure path. -/
theorem c4_invalid_fatal (lines : List String) (line : String)
    (hmem : line ∈ lines) (hnb : pyStrip line ≠ "")
    (hinv : ipv6_to_canonical (pyStrip line) = none) :
    count_unique_basic lines = none ∧
      (∀ w order, count_unique_optimized lines w order = none) ∧
      ∀ (basic_flag optimized_flag : Bool) (workers : Nat) (input_exists : Bool)
        (input_size : Nat) (order : List Nat),
        (main_run basic_flag optimized_flag workers input_exists input_size
          lines order).1 = none ∧
        ∀ content, FsEvent.writeOutput content ∉
          (main_run basic_flag optimized_flag workers input_exists input_size
            lines order).2 := by
  have hnone := canonicalsOf_none_of_invalid hnb hinv lines hmem
  have hbasic : count_unique_basic lines = none := by
    rw [count_unique_basic_spec, hnone]
    rfl
  have hopt : ∀ w order, count_unique_optimized lines w order = none := fun w order =>
    count_unique_optimized_none hnone w order
  refine ⟨hbasic, hopt, ?_⟩
  intro bf of w ex size order
  unfold main_run
  cases ex
  · simp
  · cases select_mode bf of size
    · rw [hbasic]
      exact ⟨rfl, by intro content; simp⟩
    · rw [hopt w order]
      refine ⟨rfl, ?_⟩
      intro content
      simp

theorem c4_invalid_fatal_witness :
    count_unique_basic ["zzz"] = none :=
  (c4_invalid_fatal ["zzz"] "zzz" (by decide) (by decide) (by decide)).1

/-- C5: Partition assignment is a pure, deterministic function of the
canonical string alone — the fixed (non-randomized) MD5-based hash of the
canonical bytes taken modulo `NUM_PARTITIONS` — and the resulting index
always lies in `[0, NUM_PARTITIONS)`. -/
theorem c5_partition_assignment (canonical : String) :
    partition_index canonical < NUM_PARTITIONS ∧
      partition_index canonical =
        unhex ((md5_hexdigest (utf8Encode canonical)).take 8) % NUM_PARTITIONS ∧
      ∀ c' : String, canonical = c' → partition_index canonical = partition_index c' :=
  ⟨partition_index_lt canonical, rfl, fun _ h => h ▸ rfl⟩

/-- C6: Buffered-flush invariant of the partitioning loop — processing one
valid line routes its canonical form through `applyCanonical`, which appends
`canonical + '\n'` to the buffer of partition `partition_index canonical`;
whenever the byte counter reaches `CHUNK_WRITE_SIZE` after the append, every
buffer is written out and cleared and the counter is reset (otherwise only
the counter grows and no file is touched); the counter always equals the
total buffered bytes and is strictly below the threshold after every
iteration; and the final flush writes every remaining buffer to its file. -/
theorem c6_buffered_flush (s : PartState) (line c : String) (rest : List String)
    (hnb : pyStrip line ≠ "") (hc : ipv6_to_canonical (pyStrip line) = some c)
    (hsum : s.buffer_size = bufferedBytes s) :
    partitionLoop (line :: rest) s = partitionLoop rest (applyCanonical s c) ∧
      (applyCanonical s c).buffer_size < CHUNK_WRITE_SIZE ∧
      (applyCanonical s c).buffer_size = bufferedBytes (applyCanonical s c) ∧
      (CHUNK_WRITE_SIZE ≤ s.buffer_size + c.length + 1 →
        (∀ i, (applyCanonical s c).buffer i = []) ∧
          (applyCanonical s c).buffer_size = 0 ∧
          ∀ i, (applyCanonical s c).files i =
            s.files i ++ Function.update s.buffer (partition_index c)
              (s.buffer (partition_index c) ++ [c ++ "\n"]) i) ∧
      (s.buffer_size + c.length + 1 < CHUNK_WRITE_SIZE →
        (applyCanonical s c).buffer_size = s.buffer_size + c.length + 1 ∧
          (∀ i, (applyCanonical s c).buffer i =
            Function.update s.buffer (partition_index c)
              (s.buffer (partition_index c) ++ [c ++ "\n"]) i) ∧
          ∀ i, (applyCanonical s c).files i = s.files i) ∧
      ∀ i, (finalFlush (applyCanonical s c)).files i =
        (applyCanonical s c).files i ++ (applyCanonical s c).buffer i :=
  ⟨partitionLoop_cons_valid s line c rest hnb hc,
    applyCanonical_buffer_size_lt s c,
    applyCanonical_buffer_size_sum s c hsum,
    fun hf => applyCanonical_flush_case s c hf,
    fun hf => applyCanonical_no_flush_case s c hf,
    fun i => finalFlush_files _ i⟩

theorem c6_buffered_flush_witness :
    (applyCanonical initState "0000:0000:0000:0000:0000:0000:0000:0001").buffer_size <
      CHUNK_WRITE_SIZE :=
  (c6_buffered_flush initState "::1" "0000:0000:0000:0000:0000:0000:0000:0001" []
    (by decide) (by decide)
    (by simp [initState, bufferedBytes, spillSize])).2.1

/-- C7: Guaranteed cleanup — in every run of `main`, on every exit path
(normal completion or any engine failure), the temporary directory creation
is matched by its removal before control returns: the `with
TemporaryDirectory()` block removes the directory (and the spill files in
it) whether or not its body succeeds, and the removal precedes any output
write. -/
theorem c7_guaranteed_cleanup (basic_flag optimized_flag : Bool) (workers : Nat)
    (input_exists : Bool) (input_size : Nat) (lines : List String) (order : List Nat) :
    ((main_run basic_flag optimized_flag workers input_exists input_size
        lines order).2.count FsEvent.removeTempDir =
      (main_run basic_flag optimized_flag workers input_exists input_size
        lines order).2.count FsEvent.createTempDir) ∧
      (FsEvent.createTempDir ∈
          (main_run basic_flag optimized_flag workers input_exists input_size
            lines order).2 →
        FsEvent.removeTempDir ∈
          (main_run basic_flag optimized_flag workers input_exists input_size
            lines order).2) := by
  unfold main_run
  cases input_exists
  · simp
  · cases select_mode basic_flag optimized_flag input_size
    · cases count_unique_basic lines <;> simp [List.count_cons]
    · cases count_unique_optimized lines workers order <;> simp [List.count_cons]

/-- C8: Worker-count independence and idempotence — for every input file,
any two worker-pool sizes, and any two task-completion orders, the optimized
engine returns the same distinct count; consequently two runs of `main` on
the unmodified input (in any mode) produce identical results and effects. -/
theorem c8_worker_independence (lines : List String) (w1 w2 : Nat)
    (ord1 ord2 : List Nat) (h1 : ord1.Perm (List.range NUM_PARTITIONS))
    (h2 : ord2.Perm (List.range NUM_PARTITIONS)) :
    count_unique_optimized lines w1 ord1 = count_unique_optimized lines w2 ord2 ∧
      ∀ (basic_flag optimized_flag : Bool) (w : Nat) (input_exists : Bool)
        (input_size : Nat),
        main_run basic_flag optimized_flag w input_exists input_size lines ord1 =
          main_run basic_flag optimized_flag w input_exists input_size lines ord2 := by
  refine ⟨by rw [optimized_eq_basic lines w1 h1, optimized_eq_basic lines w2 h2], ?_⟩
  intro bf of w ex size
  unfold main_run
  cases ex
  · rfl
  · have heq : count_unique_optimized lines w ord1 = count_unique_optimized lines w ord2 := by
      rw [optimized_eq_basic lines w h1, optimized_eq_basic lines w h2]
    cases select_mode bf of size
    · rfl
    · rw [heq]

theorem c8_worker_independence_witness :
    count_unique_optimized ["::1", "0:0:0:0:0:0:0:1"] 1 (List.range NUM_PARTITIONS) =
      count_unique_optimized ["::1", "0:0:0:0:0:0:0:1"] 4
        (List.range NUM_PARTITIONS).reverse :=
  (c8_worker_independence _ 1 4 _ _ (List.Perm.refl _)
    (List.reverse_perm (List.range NUM_PARTITIONS))).1

/-- C9: Zero boundaries — on the empty file, and on every file whose lines
are all blank after stripping, both engines return a distinct count of 0
(the optimized engine under any worker count and completion order). -/
theorem c9_zero_boundaries :
    (count_unique_basic [] = some 0 ∧
      ∀ w order, count_unique_optimized [] w order = some 0) ∧
      ∀ lines : List String, (∀ l ∈ lines, pyStrip l = "") →
        count_unique_basic lines = some 0 ∧
          ∀ w order, count_unique_optimized lines w order = some 0 := by
  have key : ∀ lines : List String, canonicalsOf lines = some [] →
      count_unique_basic lines = some 0 ∧
        ∀ w order, count_unique_optimized lines w order = some 0 := by
    intro lines h
    constructor
    · rw [count_unique_basic_spec, h]
      rfl
    · exact fun w order => count_unique_optimized_empty h w order
  exact ⟨key [] rfl, fun lines hblank => key lines (canonicalsOf_blank lines hblank)⟩

theorem c9_zero_boundaries_witness :
    count_unique_basic ["", "   "] = some 0 ∧
      ∀ w order, count_unique_optimized ["", "   "] w order = some 0 :=
  c9_zero_boundaries.2 ["", "   "] (by decide)

/-- C10 (implicit): flag precedence — when both `--basic` and `--optimized`
are passed, the basic in-memory strategy is used: the mode selector returns
`basicMode` for every file size (`--basic` wins over `--optimized` and over
the 50 MiB auto-selection threshold), `main` never creates a temporary
directory, and its result is exactly the basic engine's count. -/
theorem c10_basic_flag_precedence (optimized_flag : Bool) (input_size workers : Nat)
    (lines : List String) (order : List Nat) :
    select_mode true optimized_flag input_size = EngineMode.basicMode ∧
      FsEvent.createTempDir ∉
        (main_run true optimized_flag workers true input_size lines order).2 ∧
      (main_run true optimized_flag workers true input_size lines order).1 =
        count_unique_basic lines := by
  refine ⟨rfl, ?_, ?_⟩
  · unfold main_run
    cases count_unique_basic lines <;> simp [select_mode]
  · unfold main_run
    cases count_unique_basic lines <;> simp [select_mode]

/-- The worked example of the specification: four lines, two distinct
addresses (`2001:0DB0:...:0030` equals `2001:db0::30`, and `::1` repeats). -/
theorem spec_example_distinct_count :
    count_unique_basic
      ["2001:0DB0:0000:0000:0000:0000:0000:0030", "2001:db0::30", "::1", "::1"] =
      some 2 := by decide
